import Mathlib

/-!
Verification development for the Google Meet attendance tracker
(content script `scanParticipants` pipeline, `detectSelf`, `stopTracking`,
and the background tab-removal flush).

The JavaScript source is shallowly embedded: the participant map
(a JS object keyed by display name) becomes an association list,
timestamps become naturals, and JS string truthiness is modelled
explicitly.  Each definition mirrors one source function.
-/

namespace Meet

/-- JS truthiness of a nullable string: `null` and `""` are falsy. -/
def optTruthy : Option String → Bool
  | none => false
  | some s => s ≠ ""

/-- Models the JS idiom `x || null`: an empty string collapses to null. -/
def jsOrNull (o : Option String) : Option String :=
  if optTruthy o then o else none

/-- Event type of an attendance event. -/
inductive EvType
  | Join
  | Leave
deriving DecidableEq, Repr

/-- One attendance event `{ time, type }`; time is a natural timestamp. -/
structure Event where
  time : Nat
  type : EvType
deriving DecidableEq, Repr

/-- A participant record as built by the content script. -/
structure ParticipantRecord where
  name : String
  email : Option String
  events : List Event
  isPresent : Bool
  isSelf : Bool := false
deriving DecidableEq, Repr

/-- The in-memory `participants` object: an insertion-ordered map
from display name to record. -/
abbrev PMap := List (String × ParticipantRecord)

/-- Lookup by name, mirroring `participants[name]`. -/
def pLookup (m : PMap) (n : String) : Option ParticipantRecord :=
  (List.find? (fun p => p.1 == n) m).map (·.2)

/-- Assignment `participants[name] = r`: replaces the entry in place
when the key exists, appends otherwise. -/
def pSet (m : PMap) (n : String) (r : ParticipantRecord) : PMap :=
  if (List.find? (fun p => p.1 == n) m).isSome then
    List.map (fun p => if p.1 == n then (n, r) else p) m
  else
    m ++ [(n, r)]

/-! ## Extractor (`extractParticipantInfo`, content script lines 100-154) -/

/-- Executable substring test, modelling JS `String.prototype.includes`. -/
def strContains (s pat : String) : Bool :=
  (List.range (s.toList.length + 1)).any
    (fun i => (s.toList.drop i).take pat.toList.length == pat.toList)

/-- Executable test for a leading occurrence of `pat`, modelling JS
`String.prototype.startsWith`. -/
def strStarts (s pat : String) : Bool :=
  s.toList.take pat.toList.length == pat.toList

/-- JS whitespace as relevant to `String.prototype.trim`. -/
def isWS (c : Char) : Bool :=
  c == ' ' || c == '\t' || c == '\n' || c == '\r'

/-- Executable model of JS `String.prototype.trim`. -/
def strTrim (s : String) : String :=
  ⟨((s.toList.dropWhile isWS).reverse.dropWhile isWS).reverse⟩

/-- The email-bearing child node found by
`element.querySelector of [data-email], else of .jxFHg`:
its `data-email` attribute (null when absent) and its text content. -/
structure EmailNode where
  dataEmail : Option String
  text : String
deriving DecidableEq, Repr

/-- Abstraction of a candidate DOM node, carrying exactly the inputs
`extractParticipantInfo` reads: the aria-label of the node, the text
of the first matching inner name span (`.zWGUib`, `[data-self-name]`,
`.XEazBc`, `.ZjFb7c`, `.cS7aqe`), the data-self-name
attribute, and the email child node if any. -/
structure DomElement where
  ariaLabel : Option String
  innerText : Option String
  selfNameAttr : Option String
  emailNode : Option EmailNode
deriving DecidableEq, Repr

/-- Name resolution: Method 1 (aria-label, skipped when it contains
"spaces/" or "devices/"), then Method 2 (inner name span text), then
Method 3 (`data-self-name` attribute), each tried only while the
current name is still JS-falsy. -/
def resolveName (el : DomElement) : Option String :=
  let name1 : Option String :=
    match el.ariaLabel with
    | some l =>
      if l ≠ "" && !(strContains l "spaces/")
          && !(strContains l "devices/") then some (strTrim l)
      else none
    | none => none
  let name2 : Option String :=
    if optTruthy name1 then name1
    else
      match el.innerText with
      | some t => some (strTrim t)
      | none => name1
  if optTruthy name2 then name2
  else
    match el.selfNameAttr with
    | some s => if s ≠ "" then some (strTrim s) else name2
    | none => name2

/-- Email extraction:
the data-email attribute of the email node, or else its trimmed text. -/
def extractEmail (el : DomElement) : Option String :=
  match el.emailNode with
  | none => none
  | some en =>
    match en.dataEmail with
    | some d => if d ≠ "" then some d else some (strTrim en.text)
    | none => some (strTrim en.text)

/-- The internal-identifier filter of `extractParticipantInfo`:
`name.match(/^[a-zA-Z0-9_-]{20,}$/)`. -/
def isOpaqueToken (s : String) : Bool :=
  s.toList.length ≥ 20 &&
    s.toList.all (fun c => c.isAlphanum || c == '_' || c == '-')

/-- The full rejection condition applied to a resolved name
(content script lines 140-151). -/
def badName (n : String) : Bool :=
  strStarts n "spaces/" || strStarts n "devices/" || isOpaqueToken n ||
    strContains n "/devices/" ||
    strContains n "/participants/"

/-- A `(name, email?)` pair produced by extraction. -/
structure Observation where
  name : String
  email : Option String
deriving DecidableEq, Repr

/-- Model of extractParticipantInfo(element): resolve a name, validate its
length, filter internal identifiers, and return `{name, email}` or null. -/
def extractParticipantInfo (el : DomElement) : Option Observation :=
  match resolveName el with
  | none => none
  | some n =>
    if n = "" || n.toList.length < 1 || n.toList.length > 100 then none
    else if badName n then none
    else some ⟨n, extractEmail el⟩

/-! ## Scanner and Reconciler (`scanParticipants`, lines 159-215) -/

/-- Actions passed to `notifyBackground`. -/
inductive NoteAction
  | participantJoined
  | participantRejoined
  | participantLeft
deriving DecidableEq, Repr

/-- A `notifyBackground(action, data)` call recorded with its payload. -/
structure Note where
  action : NoteAction
  data : ParticipantRecord
deriving DecidableEq, Repr

/-- Accumulator of the per-element loop in `scanParticipants`:
the participants map, the `foundParticipants` set (as an ordered
duplicate-free list), and the notifications sent so far. -/
structure ScanAcc where
  m : PMap
  found : List String
  notes : List Note
deriving DecidableEq, Repr

/-- The body of the per-element loop (lines 170-196): guarded by
`if (info && info.name)`; then the new-participant, email-update and
rejoin branches in source order. -/
def processObservation (now : Nat) (acc : ScanAcc) (o : Observation) : ScanAcc :=
  if o.name = "" then acc
  else
    let found := if acc.found.contains o.name then acc.found
                 else acc.found ++ [o.name]
    match pLookup acc.m o.name with
    | none =>
      let r : ParticipantRecord :=
        ⟨o.name, jsOrNull o.email, [⟨now, .Join⟩], true, false⟩
      ⟨pSet acc.m o.name r, found, acc.notes ++ [⟨.participantJoined, r⟩]⟩
    | some r =>
      if optTruthy o.email && !(optTruthy r.email) then
        ⟨pSet acc.m o.name { r with email := o.email }, found, acc.notes⟩
      else if !r.isPresent then
        let r' := { r with events := r.events ++ [⟨now, .Join⟩],
                           isPresent := true }
        ⟨pSet acc.m o.name r', found, acc.notes ++ [⟨.participantRejoined, r'⟩]⟩
      else
        ⟨acc.m, found, acc.notes⟩

/-- Model of foundParticipants.add(name) as performed by the loop body: the
empty name never reaches the add because of the `info.name` guard. -/
def addFound (f : List String) (n : String) : List String :=
  if n = "" then f
  else if f.contains n then f else f ++ [n]

/-- Per-entry update of the leave loop (lines 204-211). -/
def leaveUpd (now : Nat) (found : List String)
    (p : String × ParticipantRecord) : String × ParticipantRecord :=
  if !(found.contains p.1) && p.2.isPresent then
    (p.1, { p.2 with events := p.2.events ++ [⟨now, .Leave⟩],
                     isPresent := false })
  else p

/-- The leave loop: every participant in the map that was not seen in
this scan and is present gets a Leave event appended. -/
def leavePass (now : Nat) (found : List String) (m : PMap) : PMap :=
  List.map (leaveUpd now found) m

/-- Notifications emitted by the leave loop, in map order. -/
def leaveNotes (now : Nat) (found : List String) (m : PMap) : List Note :=
  (m.filter (fun p => !(found.contains p.1) && p.2.isPresent)).map
    (fun p => ⟨.participantLeft, (leaveUpd now found p).2⟩)

/-- The reconcile portion of `scanParticipants` (lines 162-211): process
every extracted observation, then run the leave loop. -/
def reconcile (now : Nat) (obs : List Observation) (m : PMap) : ScanAcc :=
  let acc := obs.foldl (processObservation now) ⟨m, [], []⟩
  ⟨leavePass now acc.found acc.m, acc.found,
    acc.notes ++ leaveNotes now acc.found acc.m⟩

/-- Model of detectSelf() (lines 220-245): the resolved self name from the first
matching self selector (already the data-self-name attribute or else the
trimmed text content), inserted without any validation when truthy and
not yet in the map. -/
def detectSelf (now : Nat) (selfObs : Option String) (m : PMap) :
    PMap × List Note :=
  match selfObs with
  | none => (m, [])
  | some sn =>
    if sn ≠ "" && (pLookup m sn).isNone then
      let r : ParticipantRecord := ⟨sn, none, [⟨now, .Join⟩], true, true⟩
      (pSet m sn r, [⟨.participantJoined, r⟩])
    else (m, [])

/-- Model of scanParticipants() (lines 159-215): bail out when not tracking,
otherwise reconcile the observed snapshot and then run self detection.
`now` is the scan timestamp, `nowSelf` the (later) timestamp taken
inside `detectSelf`. -/
def scanParticipants (isTracking : Bool) (now nowSelf : Nat)
    (obs : List Observation) (selfObs : Option String) (m : PMap) :
    PMap × List Note :=
  if !isTracking then (m, [])
  else
    let acc := reconcile now obs m
    let (m2, sn) := detectSelf nowSelf selfObs acc.m
    (m2, acc.notes ++ sn)

/-! ## Session teardown (`stopTracking`, lines 332-367, and the
background `chrome.tabs.onRemoved` listener, service worker lines
356-379) -/

/-- The flush loop of `stopTracking` (lines 346-353): append a Leave at
the end time to every still-present record. -/
def finalizeParticipants (endTime : Nat) (m : PMap) : PMap :=
  List.map (fun p =>
    if p.2.isPresent then
      (p.1, { p.2 with events := p.2.events ++ [⟨endTime, .Leave⟩],
                       isPresent := false })
    else p) m

/-- The identical flush loop run by the background service worker when
the tab is closed (`chrome.tabs.onRemoved` listener). -/
def tabRemovedFlush (endTime : Nat) (m : PMap) : PMap :=
  List.map (fun p =>
    if p.2.isPresent then
      (p.1, { p.2 with events := p.2.events ++ [⟨endTime, .Leave⟩],
                       isPresent := false })
    else p) m

/-- A finalized session as emitted in the MEETING_ENDED message. -/
structure FinalizedSession where
  endTime : Nat
  participants : PMap
deriving DecidableEq, Repr

/-- Tracker-side state of the content script. -/
structure TrackerState where
  isTracking : Bool
  participants : PMap
  finalized : List FinalizedSession
deriving DecidableEq, Repr

/-- One externally triggered transition of the content script:
a scan cycle, a teardown (`stopTracking`), or a (re)start. -/
inductive Step
  | scan (now nowSelf : Nat) (obs : List Observation)
         (selfObs : Option String)
  | stop (endTime : Nat)
  | start
deriving DecidableEq, Repr

/-- State after running one step. `stop` flushes present participants,
emits the finalized session, and resets the map; `start` mirrors
`startTracking` resetting `participants = {}`. -/
def stepRun (s : TrackerState) : Step → TrackerState
  | .scan now nowSelf obs selfObs =>
    { s with participants :=
        (scanParticipants s.isTracking now nowSelf obs selfObs
          s.participants).1 }
  | .stop t =>
    { isTracking := false, participants := [],
      finalized := s.finalized ++ [⟨t, finalizeParticipants t s.participants⟩] }
  | .start => { s with isTracking := true, participants := [] }

/-- Run a whole sequence of steps. -/
def runSteps (s : TrackerState) (steps : List Step) : TrackerState :=
  steps.foldl stepRun s

/-- The state right after `startTracking` first runs. -/
def initState : TrackerState := ⟨true, [], []⟩

/-! ## Scheduler and teardown cancellation (`setupObserver` lines
266-286, `stopTracking` lines 332-344) -/

/-- Content-script level system state: the tracking flag and map
together with the live timer and observer handles
(`window._attendanceDebounce`, `pollingInterval`, `observer`). -/
structure SysState where
  isTracking : Bool
  participants : PMap
  debouncePending : Bool
  pollingActive : Bool
  observerAttached : Bool
deriving DecidableEq, Repr

/-- The MutationObserver callback (lines 271-275):
`clearTimeout` + `setTimeout(scanParticipants, 500)` — at most one
pending debounce timer at a time. -/
def onMutation (s : SysState) : SysState :=
  { s with debouncePending := true }

/-- The pending debounce timer firing: it runs `scanParticipants` with
whatever the DOM yields at that moment and is no longer pending. -/
def fireDebounce (now nowSelf : Nat) (obs : List Observation)
    (selfObs : Option String) (s : SysState) : SysState :=
  if s.debouncePending then
    { s with debouncePending := false,
             participants := (scanParticipants s.isTracking now nowSelf
               obs selfObs s.participants).1 }
  else s

/-- The polling interval firing (line 316). -/
def firePolling (now nowSelf : Nat) (obs : List Observation)
    (selfObs : Option String) (s : SysState) : SysState :=
  if s.pollingActive then
    { s with participants := (scanParticipants s.isTracking now nowSelf
        obs selfObs s.participants).1 }
  else s

/-- Model of stopTracking() at the system level (lines 332-367): clears the
tracking flag, disconnects the observer, clears the polling interval,
flushes and emits the map, and resets `participants = {}`.  The code
never touches `window._attendanceDebounce`, so the pending debounce
timer handle is carried over unchanged. -/
def stopTrackingSys (s : SysState) : SysState :=
  { isTracking := false,
    participants := [],
    debouncePending := s.debouncePending,
    pollingActive := false,
    observerAttached := false }

/-! ## Invariant vocabulary -/

/-- The opposite event type. -/
def otherTy : EvType → EvType
  | .Join => .Leave
  | .Leave => .Join

/-- Predicate altFrom t es: the event types of `es` are `t, otherTy t, t, ...`. -/
def altFrom : EvType → List Event → Bool
  | _, [] => true
  | t, e :: rest => e.type == t && altFrom (otherTy t) rest

/-- Whether the last event of the history is a Join. -/
def lastIsJoin (es : List Event) : Bool :=
  match es.getLast? with
  | some e => e.type == EvType.Join
  | none => false

/-- Non-decreasing event timestamps. -/
def ndEvents : List Event → Bool
  | [] => true
  | [_] => true
  | a :: b :: rest => a.time ≤ b.time && ndEvents (b :: rest)

/-- All event timestamps bounded by `b`. -/
def timesLE (b : Nat) (es : List Event) : Bool :=
  es.all (fun e => e.time ≤ b)

/-- The per-record invariant claimed by the spec: a non-empty history
with non-decreasing timestamps, strictly alternating Join/Leave
starting with Join, and `isPresent` equal to
"the last event is a Join". -/
def recOK (r : ParticipantRecord) : Bool :=
  !r.events.isEmpty && ndEvents r.events && altFrom .Join r.events &&
    (r.isPresent == lastIsJoin r.events)

/-- The predicate recOK strengthened with a timestamp upper bound, used to thread
the invariant through time-ordered step sequences. -/
def recWF (b : Nat) (r : ParticipantRecord) : Bool :=
  recOK r && timesLE b r.events

/-- Every record of the map satisfies the bounded invariant. -/
def MapWF (b : Nat) (m : PMap) : Prop :=
  ∀ q ∈ m, recWF b q.2 = true

/-- The timestamps a step consumes, in evaluation order. -/
def stepTimes : Step → List Nat
  | .scan t ts _ _ => [t, ts]
  | .stop t => [t]
  | .start => []

/-- The time lower bound after running a step. -/
def stepBound (b : Nat) : Step → Nat
  | .scan _ ts _ _ => ts
  | .stop t => t
  | .start => b

/-- Predicate ndFrom b ts: the list `ts` is non-decreasing and bounded below
by `b`. -/
def ndFrom (b : Nat) : List Nat → Bool
  | [] => true
  | t :: rest => b ≤ t && ndFrom t rest

/-- Steps happen at non-decreasing clock readings, starting from `b`:
this models that successive `new Date()` calls never go backwards. -/
def chronoFrom (b : Nat) : List Step → Bool
  | [] => true
  | st :: rest => ndFrom b (stepTimes st) && chronoFrom (stepBound b st) rest

/-- Running bound over a step sequence. -/
def runBound (b : Nat) (steps : List Step) : Nat :=
  steps.foldl stepBound b

/-- Combined state invariant: the live map and every already-finalized
session satisfy the record invariant. -/
def StateWF (b : Nat) (s : TrackerState) : Prop :=
  MapWF b s.participants ∧
    ∀ f ∈ s.finalized, ∀ q ∈ f.participants, recOK q.2 = true

/-- The idempotence proviso: no observation carries a truthy email for
an existing record that is away with a falsy email (the configuration
whose first reconcile defers the rejoin Join to the next scan). -/
def ProvisoOK (m : PMap) (obs : List Observation) : Prop :=
  ∀ o ∈ obs, ∀ r0, pLookup m o.name = some r0 → r0.isPresent = false →
    optTruthy r0.email = false → optTruthy o.email = false

/-- Internal fold invariant: every record of the working map is
present, or carries a truthy email, or is still the untouched record
of the starting map. -/
def Carried (m : PMap) (macc : PMap) : Prop :=
  ∀ k r', pLookup macc k = some r' →
    r'.isPresent = true ∨ optTruthy r'.email = true ∨ pLookup m k = some r'

/-- An observation is settled in a map: its record exists, is present,
and carries a truthy email whenever the observation does. -/
def Settled (macc : PMap) (o : Observation) : Prop :=
  ∃ r', pLookup macc o.name = some r' ∧ r'.isPresent = true ∧
    (optTruthy o.email = true → optTruthy r'.email = true)

/-! ## Concrete sample data used by witnesses and counterexamples -/

/-- A record for Alice who joined at 1 and left at 2, no email. -/
def aliceAway : ParticipantRecord :=
  ⟨"Alice", none, [⟨1, .Join⟩, ⟨2, .Leave⟩], false, false⟩

/-- A record for Bob who is currently present. -/
def bobHere : ParticipantRecord :=
  ⟨"Bob", none, [⟨1, .Join⟩], true, false⟩

/-- A self record currently present. -/
def selfHere : ParticipantRecord :=
  ⟨"Me", none, [⟨1, .Join⟩], true, true⟩

/-- A record for Carol, present, without email. -/
def carolHere : ParticipantRecord :=
  ⟨"Carol", none, [⟨1, .Join⟩], true, false⟩

/-- A small scan trace: Alice appears, everyone disappears, teardown. -/
def demoSteps : List Step :=
  [.scan 1 1 [⟨"Alice", none⟩] none,
   .scan 2 2 [] none,
   .stop 3]

/-! ## Lookup laws -/

theorem find_map_replace_ne (m : PMap) (n : String) (r : ParticipantRecord)
    (k : String) (hkn : k ≠ n) :
    List.find? (fun p => p.1 == k)
      (List.map (fun p => if p.1 == n then (n, r) else p) m)
      = List.find? (fun p => p.1 == k) m := by
  induction m with
  | nil => rfl
  | cons p rest ih =>
    simp only [List.map_cons]
    by_cases hp : p.1 = n
    · rw [if_pos (by simpa using hp)]
      rw [List.find?_cons_of_neg _ (by simp [Ne.symm hkn]),
          List.find?_cons_of_neg _ (by simp [hp, Ne.symm hkn])]
      exact ih
    · rw [if_neg (by simpa using hp)]
      by_cases hpk : p.1 = k
      · rw [List.find?_cons_of_pos _ (by simpa using hpk),
            List.find?_cons_of_pos _ (by simpa using hpk)]
      · rw [List.find?_cons_of_neg _ (by simpa using hpk),
            List.find?_cons_of_neg _ (by simpa using hpk)]
        exact ih

theorem find_map_replace_eq (m : PMap) (n : String) (r : ParticipantRecord)
    (hex : (List.find? (fun p => p.1 == n) m).isSome = true) :
    List.find? (fun p => p.1 == n)
      (List.map (fun p => if p.1 == n then (n, r) else p) m)
      = some (n, r) := by
  induction m with
  | nil => simp at hex
  | cons p rest ih =>
    simp only [List.map_cons]
    by_cases hp : p.1 = n
    · rw [if_pos (by simpa using hp)]
      exact List.find?_cons_of_pos _ (by simp)
    · rw [if_neg (by simpa using hp)]
      rw [List.find?_cons_of_neg _ (by simpa using hp)]
      apply ih
      rwa [List.find?_cons_of_neg _ (by simpa using hp)] at hex

/-- The fundamental lookup law of assignment. -/
theorem pLookup_pSet (m : PMap) (n : String) (r : ParticipantRecord) (k : String) :
    pLookup (pSet m n r) k = if k = n then some r else pLookup m k := by
  unfold pLookup pSet
  by_cases hex : (List.find? (fun p => p.1 == n) m).isSome = true
  · rw [if_pos hex]
    by_cases hkn : k = n
    · subst hkn
      rw [find_map_replace_eq m k r hex]
      simp
    · rw [find_map_replace_ne m n r k hkn, if_neg hkn]
  · rw [if_neg hex]
    have hmn : List.find? (fun p => p.1 == n) m = none := by
      cases h : List.find? (fun p => p.1 == n) m with
      | none => rfl
      | some v => exact absurd (by simp [h]) hex
    rw [List.find?_append]
    by_cases hkn : k = n
    · subst hkn
      rw [hmn]
      simp [List.find?]
    · rw [if_neg hkn]
      cases hk : List.find? (fun p => p.1 == k) m with
      | some v => simp
      | none =>
        rw [List.find?_cons_of_neg _ (by simpa using Ne.symm hkn)]
        simp [List.find?]

/-! ## Event-history lemmas -/

theorem altFrom_append (es : List Event) (t : EvType) (e : Event)
    (h : altFrom t es = true)
    (he : (match es.getLast? with
           | none => e.type = t
           | some l => e.type = otherTy l.type)) :
    altFrom t (es ++ [e]) = true := by
  induction es generalizing t with
  | nil =>
    simp only [List.getLast?_nil] at he
    simp [altFrom, he]
  | cons a rest ih =>
    simp only [altFrom, Bool.and_eq_true, beq_iff_eq] at h
    obtain ⟨ha, hrest⟩ := h
    simp only [List.cons_append, altFrom, Bool.and_eq_true, beq_iff_eq]
    refine ⟨ha, ih (otherTy t) hrest ?_⟩
    cases rest with
    | nil =>
      simp only [List.getLast?_singleton] at he
      simp [List.getLast?_nil, he, ha]
    | cons c rs =>
      simpa only [List.getLast?_cons_cons] using he

theorem lastIsJoin_append (es : List Event) (e : Event) :
    lastIsJoin (es ++ [e]) = (e.type == EvType.Join) := by
  simp [lastIsJoin, List.getLast?_concat]

theorem ndEvents_append (es : List Event) (b n : Nat) (ty : EvType)
    (hnd : ndEvents es = true) (hle : timesLE b es = true) (hbn : b ≤ n) :
    ndEvents (es ++ [⟨n, ty⟩]) = true := by
  induction es with
  | nil => simp [ndEvents]
  | cons a rest ih =>
    cases rest with
    | nil =>
      simp only [timesLE, List.all_cons, Bool.and_eq_true,
        decide_eq_true_eq, List.all_nil] at hle
      simp only [List.cons_append, List.nil_append, ndEvents,
        Bool.and_eq_true, decide_eq_true_eq]
      exact ⟨le_trans hle.1 hbn, trivial⟩
    | cons c rs =>
      simp only [ndEvents, Bool.and_eq_true, decide_eq_true_eq] at hnd
      simp only [timesLE, List.all_cons, Bool.and_eq_true] at hle
      have := ih hnd.2 (by simp [timesLE, hle.2.1, hle.2.2])
      simp only [List.cons_append, ndEvents, Bool.and_eq_true,
        decide_eq_true_eq] at this ⊢
      exact ⟨hnd.1, this⟩

theorem timesLE_mono (es : List Event) (b b' : Nat) (h : b ≤ b')
    (hle : timesLE b es = true) : timesLE b' es = true := by
  simp only [timesLE, List.all_eq_true, decide_eq_true_eq] at hle ⊢
  exact fun e he => le_trans (hle e he) h

theorem timesLE_append (es : List Event) (n : Nat) (ty : EvType)
    (hle : timesLE n es = true) :
    timesLE n (es ++ [⟨n, ty⟩]) = true := by
  simp only [timesLE, List.all_eq_true, decide_eq_true_eq] at hle ⊢
  intro e he
  rcases List.mem_append.mp he with h | h
  · exact hle e h
  · simp at h; simp [h]

/-! ## Record-invariant preservation lemmas -/

theorem recWF_mono (b b' : Nat) (r : ParticipantRecord) (h : b ≤ b')
    (hr : recWF b r = true) : recWF b' r = true := by
  simp only [recWF, Bool.and_eq_true] at hr ⊢
  exact ⟨hr.1, timesLE_mono _ _ _ h hr.2⟩

theorem recWF_fresh (n : Nat) (name : String) (em : Option String)
    (self : Bool) :
    recWF n ⟨name, em, [⟨n, .Join⟩], true, self⟩ = true := by
  simp [recWF, recOK, ndEvents, altFrom, lastIsJoin, timesLE]

theorem recWF_email (b : Nat) (r : ParticipantRecord) (e : Option String)
    (hr : recWF b r = true) : recWF b { r with email := e } = true := by
  simpa [recWF, recOK] using hr

/-- Appending a Join to a non-present well-formed record at a time past
its bound yields a well-formed present record. -/
theorem recWF_join (b n : Nat) (r : ParticipantRecord) (hbn : b ≤ n)
    (hr : recWF b r = true) (hp : r.isPresent = false) :
    recWF n { r with events := r.events ++ [⟨n, .Join⟩],
                     isPresent := true } = true := by
  simp only [recWF, recOK, Bool.and_eq_true] at hr
  obtain ⟨⟨⟨⟨hne, hnd⟩, halt⟩, hsync⟩, hle⟩ := hr
  have hlast : lastIsJoin r.events = false := by
    rw [hp] at hsync
    exact (beq_iff_eq.mp hsync).symm
  simp only [recWF, recOK, Bool.and_eq_true]
  refine ⟨⟨⟨⟨by simp, ndEvents_append _ b n _ hnd hle hbn⟩, ?_⟩, ?_⟩, ?_⟩
  · apply altFrom_append _ _ _ halt
    cases hg : r.events.getLast? with
    | none =>
      exact absurd (List.getLast?_eq_none_iff.mp hg)
        (by simpa [List.isEmpty_iff] using hne)
    | some l =>
      simp only [lastIsJoin, hg, beq_iff_eq] at hlast
      cases hl : l.type with
      | Join => exact absurd hl (by simpa using hlast)
      | Leave => simp [otherTy, hl]
  · rw [lastIsJoin_append]; rfl
  · exact timesLE_append _ _ _ (timesLE_mono _ _ _ hbn hle)

/-- Appending a Leave to a present well-formed record at a time past
its bound yields a well-formed non-present record. -/
theorem recWF_leave (b n : Nat) (r : ParticipantRecord) (hbn : b ≤ n)
    (hr : recWF b r = true) (hp : r.isPresent = true) :
    recWF n { r with events := r.events ++ [⟨n, .Leave⟩],
                     isPresent := false } = true := by
  simp only [recWF, recOK, Bool.and_eq_true] at hr
  obtain ⟨⟨⟨⟨hne, hnd⟩, halt⟩, hsync⟩, hle⟩ := hr
  have hlast : lastIsJoin r.events = true := by
    rw [hp] at hsync
    exact (beq_iff_eq.mp hsync).symm
  simp only [recWF, recOK, Bool.and_eq_true]
  refine ⟨⟨⟨⟨by simp, ndEvents_append _ b n _ hnd hle hbn⟩, ?_⟩, ?_⟩, ?_⟩
  · apply altFrom_append _ _ _ halt
    cases hg : r.events.getLast? with
    | none =>
      exact absurd (List.getLast?_eq_none_iff.mp hg)
        (by simpa [List.isEmpty_iff] using hne)
    | some l =>
      simp only [lastIsJoin, hg, beq_iff_eq] at hlast
      simp [otherTy, hlast]
  · rw [lastIsJoin_append]; rfl
  · exact timesLE_append _ _ _ (timesLE_mono _ _ _ hbn hle)

/-! ## Map-invariant preservation through the pipeline -/

theorem pLookup_mem (m : PMap) (k : String) (r : ParticipantRecord)
    (h : pLookup m k = some r) : (k, r) ∈ m := by
  unfold pLookup at h
  cases hf : List.find? (fun p => p.1 == k) m with
  | none => rw [hf] at h; simp at h
  | some q =>
    obtain ⟨a, b⟩ := q
    rw [hf] at h
    simp at h
    have hq := List.find?_some hf
    simp only [beq_iff_eq] at hq
    have hm := List.mem_of_find?_eq_some hf
    rw [hq, h] at hm
    exact hm

theorem MapWF_pSet (b : Nat) (m : PMap) (n : String) (r : ParticipantRecord)
    (hm : MapWF b m) (hr : recWF b r = true) : MapWF b (pSet m n r) := by
  intro q hq
  unfold pSet at hq
  split at hq
  · rcases List.mem_map.mp hq with ⟨p, hp, hpq⟩
    by_cases h : p.1 = n
    · rw [if_pos (by simpa using h)] at hpq
      rw [← hpq]
      exact hr
    · rw [if_neg (by simpa using h)] at hpq
      rw [← hpq]
      exact hm p hp
  · rcases List.mem_append.mp hq with h | h
    · exact hm q h
    · simp only [List.mem_singleton] at h
      rw [h]
      exact hr

theorem processObservation_WF (now : Nat) (acc : ScanAcc) (o : Observation)
    (h : MapWF now acc.m) : MapWF now (processObservation now acc o).m := by
  simp only [processObservation]
  split
  · exact h
  · split
    · exact MapWF_pSet now acc.m o.name _ h
        (recWF_fresh now o.name (jsOrNull o.email) false)
    · rename_i r hsome
      have hr : recWF now r = true := h (o.name, r) (pLookup_mem _ _ _ hsome)
      split
      · exact MapWF_pSet _ _ _ _ h (recWF_email _ _ _ hr)
      · split
        · rename_i hp
          exact MapWF_pSet _ _ _ _ h
            (recWF_join now now r le_rfl hr (by simpa using hp))
        · exact h

theorem foldl_processObservation_WF (now : Nat) (obs : List Observation)
    (acc : ScanAcc) (h : MapWF now acc.m) :
    MapWF now (obs.foldl (processObservation now) acc).m := by
  induction obs generalizing acc with
  | nil => exact h
  | cons o rest ih => exact ih _ (processObservation_WF now acc o h)

theorem leavePass_WF (now : Nat) (found : List String) (m : PMap)
    (h : MapWF now m) : MapWF now (leavePass now found m) := by
  intro q hq
  rcases List.mem_map.mp hq with ⟨p, hp, hpq⟩
  rw [← hpq]
  unfold leaveUpd
  split
  · rename_i hcond
    have hpr := (Bool.and_eq_true _ _).mp hcond
    exact recWF_leave now now p.2 le_rfl (h p hp) hpr.2
  · exact h p hp

theorem reconcile_WF (now : Nat) (obs : List Observation) (m : PMap)
    (h : MapWF now m) : MapWF now (reconcile now obs m).m := by
  unfold reconcile
  exact leavePass_WF now _ _ (foldl_processObservation_WF now obs ⟨m, [], []⟩ h)

theorem detectSelf_WF (ts : Nat) (selfObs : Option String) (m : PMap)
    (h : MapWF ts m) : MapWF ts (detectSelf ts selfObs m).1 := by
  simp only [detectSelf]
  split
  · exact h
  · rename_i sn
    split
    · exact MapWF_pSet ts m sn _ h (recWF_fresh ts sn none true)
    · exact h

theorem scanParticipants_WF (tr : Bool) (now ts : Nat)
    (obs : List Observation) (selfObs : Option String) (m : PMap)
    (hts : now ≤ ts) (h : MapWF now m) :
    MapWF ts (scanParticipants tr now ts obs selfObs m).1 := by
  have hmono : ∀ m', MapWF now m' → MapWF ts m' :=
    fun m' hm q hq => recWF_mono now ts _ hts (hm q hq)
  unfold scanParticipants
  split
  · exact hmono m h
  · exact detectSelf_WF ts selfObs _ (hmono _ (reconcile_WF now obs m h))

theorem finalize_WF (b t : Nat) (m : PMap) (hbt : b ≤ t) (h : MapWF b m) :
    MapWF t (finalizeParticipants t m) := by
  intro q hq
  rcases List.mem_map.mp hq with ⟨p, hp, hpq⟩
  rw [← hpq]
  split
  · rename_i hpr
    exact recWF_leave b t p.2 hbt (h p hp) hpr
  · exact recWF_mono b t _ hbt (h p hp)

theorem stepRun_WF (b : Nat) (s : TrackerState) (st : Step)
    (hWF : StateWF b s) (hc : ndFrom b (stepTimes st) = true) :
    StateWF (stepBound b st) (stepRun s st) := by
  obtain ⟨hmap, hfin⟩ := hWF
  cases st with
  | scan now ts obs selfObs =>
    simp only [stepTimes, ndFrom, Bool.and_eq_true, decide_eq_true_eq] at hc
    obtain ⟨hbn, hnts, _⟩ := hc
    constructor
    · have hnow : MapWF now s.participants :=
        fun q hq => recWF_mono b now _ hbn (hmap q hq)
      exact scanParticipants_WF s.isTracking now ts obs selfObs
        s.participants hnts hnow
    · exact hfin
  | stop t =>
    simp only [stepTimes, ndFrom, Bool.and_eq_true, decide_eq_true_eq] at hc
    constructor
    · intro q hq; simp [stepRun] at hq
    · intro f hf
      simp only [stepRun, List.mem_append, List.mem_singleton] at hf
      rcases hf with hf | hf
      · exact hfin f hf
      · rw [hf]
        intro q hq
        have := finalize_WF b t s.participants hc.1 hmap q hq
        simp only [recWF, Bool.and_eq_true] at this
        exact this.1
  | start =>
    constructor
    · intro q hq; simp [stepRun] at hq
    · exact hfin

theorem runSteps_WF (steps : List Step) (b : Nat) (s : TrackerState)
    (hc : chronoFrom b steps = true) (hWF : StateWF b s) :
    StateWF (runBound b steps) (runSteps s steps) := by
  induction steps generalizing b s with
  | nil => exact hWF
  | cons st rest ih =>
    simp only [chronoFrom, Bool.and_eq_true] at hc
    exact ih (stepBound b st) (stepRun s st) hc.2 (stepRun_WF b s st hWF hc.1)

/-! ## Lookup characterizations of the pipeline stages -/

theorem pLookup_map_keyed (φ : String × ParticipantRecord → ParticipantRecord)
    (m : PMap) (k : String) :
    pLookup (List.map (fun p => (p.1, φ p)) m) k
      = (pLookup m k).map (fun r => φ (k, r)) := by
  induction m with
  | nil => rfl
  | cons p rest ih =>
    by_cases hp : p.1 = k
    · unfold pLookup
      rw [List.map_cons, List.find?_cons_of_pos _ (by simpa using hp),
          List.find?_cons_of_pos _ (by simpa using hp)]
      subst hp
      rfl
    · unfold pLookup at ih ⊢
      rw [List.map_cons, List.find?_cons_of_neg _ (by simpa using hp),
          List.find?_cons_of_neg _ (by simpa using hp)]
      exact ih

theorem leavePass_eq_map (now : Nat) (f : List String) (m : PMap) :
    leavePass now f m
      = List.map (fun p => (p.1,
          if !(f.contains p.1) && p.2.isPresent then
            { p.2 with events := p.2.events ++ [⟨now, .Leave⟩],
                       isPresent := false }
          else p.2)) m := by
  unfold leavePass
  congr 1
  funext p
  unfold leaveUpd
  by_cases hc : (!(f.contains p.1) && p.2.isPresent) = true
  · rw [if_pos hc, if_pos hc]
  · rw [if_neg hc, if_neg hc]

theorem pLookup_leavePass (now : Nat) (f : List String) (m : PMap)
    (k : String) :
    pLookup (leavePass now f m) k
      = (pLookup m k).map (fun r =>
          if !(f.contains k) && r.isPresent then
            { r with events := r.events ++ [⟨now, .Leave⟩],
                     isPresent := false }
          else r) := by
  rw [leavePass_eq_map, pLookup_map_keyed]

theorem finalize_eq_map (t : Nat) (m : PMap) :
    finalizeParticipants t m
      = List.map (fun p => (p.1,
          if p.2.isPresent then
            { p.2 with events := p.2.events ++ [⟨t, .Leave⟩],
                       isPresent := false }
          else p.2)) m := by
  unfold finalizeParticipants
  congr 1
  funext p
  by_cases hc : p.2.isPresent = true
  · rw [if_pos hc, if_pos hc]
  · rw [if_neg hc, if_neg hc]

theorem pLookup_finalize (t : Nat) (m : PMap) (k : String) :
    pLookup (finalizeParticipants t m) k
      = (pLookup m k).map (fun r =>
          if r.isPresent then
            { r with events := r.events ++ [⟨t, .Leave⟩],
                     isPresent := false }
          else r) := by
  rw [finalize_eq_map, pLookup_map_keyed]

/-- The per-element loop only modifies the entry of the observed name. -/
theorem pLookup_processObservation_ne (now : Nat) (acc : ScanAcc)
    (o : Observation) (k : String) (hk : k ≠ o.name) :
    pLookup (processObservation now acc o).m k = pLookup acc.m k := by
  simp only [processObservation]
  split
  · rfl
  · split
    · rw [pLookup_pSet, if_neg hk]
    · split
      · rw [pLookup_pSet, if_neg hk]
      · split
        · rw [pLookup_pSet, if_neg hk]
        · rfl

theorem pLookup_fold_untouched (now : Nat) (obs : List Observation)
    (acc : ScanAcc) (k : String) (hk : ∀ o ∈ obs, o.name ≠ k) :
    pLookup (obs.foldl (processObservation now) acc).m k = pLookup acc.m k := by
  induction obs generalizing acc with
  | nil => rfl
  | cons o rest ih =>
    rw [List.foldl_cons, ih _ (fun o' ho' => hk o' (List.mem_cons_of_mem _ ho')),
        pLookup_processObservation_ne now acc o k
          (fun h => hk o (List.mem_cons_self _ _) h.symm)]

/-- The `foundParticipants` component of the loop depends only on the
observation names, not on the map. -/
theorem processObservation_found (now : Nat) (acc : ScanAcc)
    (o : Observation) :
    (processObservation now acc o).found = addFound acc.found o.name := by
  simp only [processObservation, addFound]
  split
  · rfl
  · split
    · rfl
    · split
      · rfl
      · split
        · rfl
        · rfl

theorem fold_found (now : Nat) (obs : List Observation) (acc : ScanAcc) :
    (obs.foldl (processObservation now) acc).found
      = obs.foldl (fun f o => addFound f o.name) acc.found := by
  induction obs generalizing acc with
  | nil => rfl
  | cons o rest ih =>
    rw [List.foldl_cons, List.foldl_cons, ih, processObservation_found]

theorem mem_foldl_addFound (obs : List Observation) (f : List String)
    (k : String) (hmem : k ∈ f) :
    k ∈ obs.foldl (fun f o => addFound f o.name) f := by
  induction obs generalizing f with
  | nil => exact hmem
  | cons o rest ih =>
    apply ih
    simp only [addFound]
    split
    · exact hmem
    · split
      · exact hmem
      · exact List.mem_append_left _ hmem

theorem mem_foldl_addFound_of_obs (obs : List Observation) (f : List String)
    (o : Observation) (ho : o ∈ obs) (hne : o.name ≠ "") :
    o.name ∈ obs.foldl (fun f o => addFound f o.name) f := by
  induction obs generalizing f with
  | nil => simp at ho
  | cons o' rest ih =>
    rcases List.mem_cons.mp ho with h | h
    · subst h
      rw [List.foldl_cons]
      apply mem_foldl_addFound
      simp only [addFound]
      rw [if_neg hne]
      split
      · rename_i hc
        simpa using hc
      · exact List.mem_append_right _ (List.mem_singleton.mpr rfl)
    · exact ih _ h

theorem mem_of_mem_foldl_addFound (obs : List Observation) (f : List String)
    (k : String) (h : k ∈ obs.foldl (fun f o => addFound f o.name) f) :
    k ∈ f ∨ ∃ o ∈ obs, o.name = k := by
  induction obs generalizing f with
  | nil => exact Or.inl h
  | cons o rest ih =>
    rw [List.foldl_cons] at h
    rcases ih _ h with h' | h'
    · simp only [addFound] at h'
      split at h'
      · exact Or.inl h'
      · split at h'
        · exact Or.inl h'
        · rcases List.mem_append.mp h' with h'' | h''
          · exact Or.inl h''
          · exact Or.inr ⟨o, List.mem_cons_self _ _,
              (List.mem_singleton.mp h'').symm⟩
    · rcases h' with ⟨o', ho', hon⟩
      exact Or.inr ⟨o', List.mem_cons_of_mem _ ho', hon⟩

/-- The function detectSelf never modifies an existing record. -/
theorem pLookup_detectSelf_existing (ts : Nat) (selfObs : Option String)
    (m : PMap) (k : String) (r : ParticipantRecord)
    (h : pLookup m k = some r) :
    pLookup (detectSelf ts selfObs m).1 k = some r := by
  simp only [detectSelf]
  split
  · exact h
  · rename_i sn
    split
    · rename_i hcond
      rw [pLookup_pSet]
      split
      · rename_i hk
        subst hk
        simp only [Bool.and_eq_true, Option.isNone_iff_eq_none] at hcond
        rw [h] at hcond
        exact absurd hcond.2 (by simp)
      · exact h
    · exact h

/-- Unfolding of an active scan into its reconcile and self-detection
stages. -/
theorem scanParticipants_true (now ts : Nat) (obs : List Observation)
    (selfObs : Option String) (m : PMap) :
    scanParticipants true now ts obs selfObs m
      = ((detectSelf ts selfObs (reconcile now obs m).m).1,
         (reconcile now obs m).notes
           ++ (detectSelf ts selfObs (reconcile now obs m).m).2) := rfl

/-! ## Claims -/

/-- C1: every participant record reachable by any sequence of
scan/reconcile cycles and session teardowns performed at non-decreasing
clock readings has a non-empty event history whose timestamps are
non-decreasing and whose types strictly alternate Join/Leave starting
with Join, and isPresent always equals the test that the last event is a Join;
this holds for the live map and for every finalized session emitted at
teardown. -/
theorem C1_record_invariant (steps : List Step)
    (hc : chronoFrom 0 steps = true) :
    (∀ q ∈ (runSteps initState steps).participants, recOK q.2 = true) ∧
    (∀ f ∈ (runSteps initState steps).finalized,
      ∀ q ∈ f.participants, recOK q.2 = true) := by
  have h0 : StateWF 0 initState := by
    refine ⟨fun q hq => ?_, fun f hf => ?_⟩
    · simp [initState] at hq
    · simp [initState] at hf
  obtain ⟨hmap, hfin⟩ := runSteps_WF steps 0 initState hc h0
  refine ⟨fun q hq => ?_, hfin⟩
  have h := hmap q hq
  simp only [recWF, Bool.and_eq_true] at h
  exact h.1

theorem C1_record_invariant_witness :
    chronoFrom 0 demoSteps = true ∧ recOK aliceAway = true :=
  ⟨by decide,
   (C1_record_invariant demoSteps (by decide)).2
     ⟨3, [("Alice", aliceAway)]⟩ (by decide)
     ("Alice", aliceAway) (by decide)⟩

/-- C10: when tracking is off - in particular for a FORCE_SCAN message
arriving while inactive, which calls the same scanParticipants
function - the scan returns immediately: the map is returned unchanged,
no notifyBackground call is made, and the tracker state as a whole is
unchanged. -/
theorem C10_inactive_scan_noop (now ts : Nat) (obs : List Observation)
    (selfObs : Option String) (m : PMap) (s : TrackerState)
    (hs : s.isTracking = false) :
    scanParticipants false now ts obs selfObs m = (m, []) ∧
    stepRun s (.scan now ts obs selfObs) = s := by
  refine ⟨rfl, ?_⟩
  obtain ⟨tr, parts, fin⟩ := s
  simp only at hs
  subst hs
  rfl

theorem C10_inactive_scan_noop_witness :
    scanParticipants false 5 6 [⟨"Alice", some "a@x.com"⟩] (some "Me") []
      = ([], []) :=
  (C10_inactive_scan_noop 5 6 [⟨"Alice", some "a@x.com"⟩] (some "Me") []
    ⟨false, [], []⟩ rfl).1

/-- C5: finalization flush. At teardown - the content script
stopTracking loop and the background tab-removal handler run the
identical flush - every record with isPresent=true gets exactly one
Leave appended at the end time and becomes non-present, every record
with isPresent=false is left unchanged, and the stop transition emits a
finalized session carrying the end time. -/
theorem C5_finalization_flush (t : Nat) (m : PMap) (n : String)
    (r : ParticipantRecord) (s : TrackerState)
    (h : pLookup m n = some r) :
    (r.isPresent = true →
      pLookup (finalizeParticipants t m) n
        = some { r with events := r.events ++ [⟨t, .Leave⟩],
                        isPresent := false } ∧
      pLookup (tabRemovedFlush t m) n
        = some { r with events := r.events ++ [⟨t, .Leave⟩],
                        isPresent := false }) ∧
    (r.isPresent = false →
      pLookup (finalizeParticipants t m) n = some r ∧
      pLookup (tabRemovedFlush t m) n = some r) ∧
    (stepRun s (.stop t)).finalized
      = s.finalized ++ [⟨t, finalizeParticipants t s.participants⟩] := by
  have htab : tabRemovedFlush t m = finalizeParticipants t m := rfl
  have hfin : pLookup (finalizeParticipants t m) n
      = some (if r.isPresent then
          { r with events := r.events ++ [⟨t, .Leave⟩], isPresent := false }
        else r) := by
    rw [pLookup_finalize, h]
    rfl
  refine ⟨fun hp => ⟨?_, ?_⟩, fun hp => ⟨?_, ?_⟩, rfl⟩
  · rw [hfin, if_pos hp]
  · rw [htab, hfin, if_pos hp]
  · rw [hfin, if_neg (by simp [hp])]
  · rw [htab, hfin, if_neg (by simp [hp])]

theorem C5_finalization_flush_witness :
    pLookup (finalizeParticipants 9 [("Bob", bobHere), ("Alice", aliceAway)])
        "Bob"
      = some { bobHere with events := bobHere.events ++ [⟨9, .Leave⟩],
                            isPresent := false } ∧
    pLookup (finalizeParticipants 9 [("Bob", bobHere), ("Alice", aliceAway)])
        "Alice"
      = some aliceAway :=
  ⟨((C5_finalization_flush 9 [("Bob", bobHere), ("Alice", aliceAway)] "Bob"
      bobHere ⟨true, [], []⟩ rfl).1 rfl).1,
   (((C5_finalization_flush 9 [("Bob", bobHere), ("Alice", aliceAway)] "Alice"
      aliceAway ⟨true, [], []⟩ rfl).2.1) rfl).1⟩

/-- C3 counterexample: a single scan that observes zero nodes while Bob
is present appends a Leave to Bob in that same scan, contradicting the
claim that such a scan itself appends no Leave event. -/
theorem C3_counterexample :
    (scanParticipants true 5 5 [] none [("Bob", bobHere)]).1
      = [("Bob", ⟨"Bob", none, [⟨1, .Join⟩, ⟨5, .Leave⟩], false, false⟩)] :=
  rfl

/-- C3 amended: a scan that finds zero nodes immediately appends, in
that same scan, a Leave event to every present participant; emptiness
is never deferred to a confirming later scan, because leave inference
runs inside scanParticipants itself. -/
theorem C3_empty_scan_flushes (now ts : Nat) (selfObs : Option String)
    (m : PMap) (k : String) (r : ParticipantRecord)
    (h : pLookup m k = some r) (hp : r.isPresent = true) :
    pLookup (scanParticipants true now ts [] selfObs m).1 k
      = some { r with events := r.events ++ [⟨now, .Leave⟩],
                      isPresent := false } := by
  rw [scanParticipants_true]
  apply pLookup_detectSelf_existing
  have hrec : (reconcile now ([] : List Observation) m).m
      = leavePass now [] m := rfl
  rw [hrec, pLookup_leavePass, h]
  simp [hp]

theorem C3_empty_scan_flushes_witness :
    pLookup (scanParticipants true 5 5 [] none [("Bob", bobHere)]).1 "Bob"
      = some { bobHere with events := bobHere.events ++ [⟨5, .Leave⟩],
                            isPresent := false } :=
  C3_empty_scan_flushes 5 5 none [("Bob", bobHere)] "Bob" bobHere rfl rfl

/-- C4 counterexample: a record marked isSelf=true whose marker has
disappeared gets a Leave appended by the next scan, contradicting the
claim that a self record never receives a Leave while the session is
active. -/
theorem C4_counterexample :
    (scanParticipants true 5 5 [] none [("Me", selfHere)]).1
      = [("Me", ⟨"Me", none, [⟨1, .Join⟩, ⟨5, .Leave⟩], false, true⟩)] :=
  rfl

/-- C4 amended: a record with isSelf=true enjoys no protection: any
scan in which its name is not observed appends a Leave to it exactly
like any other participant; detectSelf only creates missing records
and never shields an existing one from the leave loop. -/
theorem C4_self_gets_leave (now ts : Nat) (obs : List Observation)
    (selfObs : Option String) (m : PMap) (k : String)
    (r : ParticipantRecord) (h : pLookup m k = some r)
    (hself : r.isSelf = true) (hp : r.isPresent = true)
    (hobs : ∀ o ∈ obs, o.name ≠ k) :
    pLookup (scanParticipants true now ts obs selfObs m).1 k
      = some { r with events := r.events ++ [⟨now, .Leave⟩],
                      isPresent := false } := by
  rw [scanParticipants_true]
  apply pLookup_detectSelf_existing
  have hfound : (obs.foldl (processObservation now)
      ⟨m, [], []⟩).found.contains k = false := by
    rw [fold_found]
    cases hb : (obs.foldl (fun f o => addFound f o.name)
        ([] : List String)).contains k with
    | false => rfl
    | true =>
      have hmem : k ∈ obs.foldl (fun f o => addFound f o.name)
          ([] : List String) := by simpa using hb
      rcases mem_of_mem_foldl_addFound obs [] k hmem with h' | ⟨o, ho, hon⟩
      · simp at h'
      · exact absurd hon (hobs o ho)
  simp only [reconcile]
  rw [pLookup_leavePass,
      pLookup_fold_untouched now obs ⟨m, [], []⟩ k hobs]
  have hm : pLookup (⟨m, [], []⟩ : ScanAcc).m k = some r := h
  rw [hm]
  have hcond : (!((obs.foldl (processObservation now)
      ⟨m, [], []⟩).found.contains k) && r.isPresent) = true := by
    rw [hfound, hp]
    rfl
  exact congrArg some (if_pos hcond)

theorem C4_self_gets_leave_witness :
    pLookup (scanParticipants true 7 7 [⟨"Alice", none⟩] (some "Me")
        [("Me", selfHere)]).1 "Me"
      = some { selfHere with events := selfHere.events ++ [⟨7, .Leave⟩],
                             isPresent := false } :=
  C4_self_gets_leave 7 7 [⟨"Alice", none⟩] (some "Me") [("Me", selfHere)]
    "Me" selfHere rfl rfl rfl (by decide)

theorem processObservation_create_case (now : Nat) (acc : ScanAcc)
    (o : Observation) (hname : ¬ o.name = "")
    (hl : pLookup acc.m o.name = none) :
    processObservation now acc o
      = ⟨pSet acc.m o.name ⟨o.name, jsOrNull o.email, [⟨now, .Join⟩], true, false⟩,
         addFound acc.found o.name,
         acc.notes ++ [⟨.participantJoined,
           ⟨o.name, jsOrNull o.email, [⟨now, .Join⟩], true, false⟩⟩]⟩ := by
  simp only [processObservation, hl, addFound, if_neg hname]

theorem processObservation_email_case (now : Nat) (acc : ScanAcc)
    (o : Observation) (r : ParticipantRecord) (hname : ¬ o.name = "")
    (hl : pLookup acc.m o.name = some r)
    (hc : (optTruthy o.email && !(optTruthy r.email)) = true) :
    processObservation now acc o
      = ⟨pSet acc.m o.name { r with email := o.email },
         addFound acc.found o.name, acc.notes⟩ := by
  simp only [processObservation, hl, hc, addFound, if_neg hname, if_true]

theorem processObservation_rejoin_case (now : Nat) (acc : ScanAcc)
    (o : Observation) (r : ParticipantRecord) (hname : ¬ o.name = "")
    (hl : pLookup acc.m o.name = some r)
    (hc : (optTruthy o.email && !(optTruthy r.email)) = false)
    (hp : r.isPresent = false) :
    processObservation now acc o
      = ⟨pSet acc.m o.name
           { r with events := r.events ++ [⟨now, .Join⟩],
                    isPresent := true },
         addFound acc.found o.name,
         acc.notes ++ [⟨.participantRejoined,
           { r with events := r.events ++ [⟨now, .Join⟩],
                    isPresent := true }⟩]⟩ := by
  simp only [processObservation, hl, hc, hp, addFound, if_neg hname]
  simp

theorem processObservation_noop_case (now : Nat) (acc : ScanAcc)
    (o : Observation) (r : ParticipantRecord) (hname : ¬ o.name = "")
    (hl : pLookup acc.m o.name = some r)
    (hc : (optTruthy o.email && !(optTruthy r.email)) = false)
    (hp : r.isPresent = true) :
    processObservation now acc o
      = ⟨acc.m, addFound acc.found o.name, acc.notes⟩ := by
  simp only [processObservation, hl, hc, hp, addFound, if_neg hname]
  simp

/-- One loop step never clears or rewrites a truthy stored email. -/
theorem emailKept_processObservation (now : Nat) (acc : ScanAcc)
    (o : Observation) (k : String) (r : ParticipantRecord)
    (h : pLookup acc.m k = some r) (he : optTruthy r.email = true) :
    ∃ r', pLookup (processObservation now acc o).m k = some r' ∧
      r'.email = r.email := by
  by_cases hname : o.name = ""
  · refine ⟨r, ?_, rfl⟩
    simp only [processObservation, if_pos hname]
    exact h
  · by_cases hk : k = o.name
    · subst hk
      have hc : (optTruthy o.email && !(optTruthy r.email)) = false := by
        rw [he]
        simp
      by_cases hp : r.isPresent = true
      · rw [processObservation_noop_case now acc o r hname h hc hp]
        exact ⟨r, h, rfl⟩
      · rw [processObservation_rejoin_case now acc o r hname h hc
          (Bool.not_eq_true _ |>.mp hp)]
        refine ⟨{ r with events := r.events ++ [⟨now, .Join⟩],
                         isPresent := true }, ?_, rfl⟩
        rw [pLookup_pSet, if_pos rfl]
    · refine ⟨r, ?_, rfl⟩
      rw [pLookup_processObservation_ne now acc o k hk]
      exact h

theorem emailKept_fold (now : Nat) (obs : List Observation) (acc : ScanAcc)
    (k : String) (r : ParticipantRecord) (h : pLookup acc.m k = some r)
    (he : optTruthy r.email = true) :
    ∃ r', pLookup ((obs.foldl (processObservation now) acc).m) k = some r' ∧
      r'.email = r.email := by
  induction obs generalizing acc r with
  | nil => exact ⟨r, h, rfl⟩
  | cons o rest ih =>
    obtain ⟨r', h', he'⟩ := emailKept_processObservation now acc o k r h he
    obtain ⟨r'', h'', he''⟩ := ih (processObservation now acc o) r' h'
      (by rw [he']; exact he)
    exact ⟨r'', h'', by rw [he'', he']⟩

/-- A full scan cycle never clears or rewrites a truthy stored email. -/
theorem emailKept_scan (tr : Bool) (now ts : Nat) (obs : List Observation)
    (selfObs : Option String) (m : PMap) (k : String)
    (r : ParticipantRecord) (h : pLookup m k = some r)
    (he : optTruthy r.email = true) :
    ∃ r', pLookup (scanParticipants tr now ts obs selfObs m).1 k = some r' ∧
      r'.email = r.email := by
  cases tr with
  | false => exact ⟨r, h, rfl⟩
  | true =>
    rw [scanParticipants_true]
    obtain ⟨r', h', he'⟩ := emailKept_fold now obs ⟨m, [], []⟩ k r h he
    have hleave : ∃ r'', pLookup (reconcile now obs m).m k = some r'' ∧
        r''.email = r'.email := by
      simp only [reconcile]
      rw [pLookup_leavePass, h']
      refine ⟨_, rfl, ?_⟩
      dsimp only
      split
      · rfl
      · rfl
    obtain ⟨r'', h'', he''⟩ := hleave
    exact ⟨r'', pLookup_detectSelf_existing ts selfObs _ k r'' h'',
      by rw [he'', he']⟩

/-- C7: email enrichment is silent and monotone.  When a known
participant is observed together with a truthy email while the stored
email is falsy, the whole loop step only sets the email: the history,
the presence flag and the notification log are untouched.  And once a
record carries a truthy email, no later full scan ever changes it. -/
theorem C7_email_enrichment (now : Nat) (acc : ScanAcc) (o : Observation)
    (r : ParticipantRecord) (hname : o.name ≠ "")
    (h : pLookup acc.m o.name = some r)
    (hoe : optTruthy o.email = true) (hre : optTruthy r.email = false) :
    processObservation now acc o
      = ⟨pSet acc.m o.name { r with email := o.email },
         addFound acc.found o.name, acc.notes⟩ ∧
    pLookup (processObservation now acc o).m o.name
      = some { r with email := o.email } ∧
    (∀ (tr : Bool) (n2 ts : Nat) (obs : List Observation)
       (selfObs : Option String) (m : PMap) (k : String)
       (r0 : ParticipantRecord), pLookup m k = some r0 →
       optTruthy r0.email = true →
       ∃ r', pLookup (scanParticipants tr n2 ts obs selfObs m).1 k = some r'
         ∧ r'.email = r0.email) := by
  have hc : (optTruthy o.email && !(optTruthy r.email)) = true := by
    rw [hoe, hre]
    rfl
  have heq := processObservation_email_case now acc o r hname h hc
  refine ⟨heq, ?_, fun tr n2 ts obs selfObs m k r0 h0 he0 =>
    emailKept_scan tr n2 ts obs selfObs m k r0 h0 he0⟩
  rw [heq]
  simp only
  rw [pLookup_pSet, if_pos rfl]

/-! ## Idempotence machinery -/

theorem carried_step (m : PMap) (now : Nat) (acc : ScanAcc)
    (o : Observation) (hC : Carried m acc.m) :
    Carried m (processObservation now acc o).m := by
  intro k r' h'
  by_cases hname : o.name = ""
  · rw [show (processObservation now acc o).m = acc.m from by
      simp [processObservation, hname]] at h'
    exact hC k r' h'
  · by_cases hk : k = o.name
    · subst hk
      cases hl : pLookup acc.m o.name with
      | none =>
        rw [processObservation_create_case now acc o hname hl,
            pLookup_pSet, if_pos rfl] at h'
        rw [← Option.some_inj.mp h']
        exact Or.inl rfl
      | some r =>
        by_cases hc : (optTruthy o.email && !(optTruthy r.email)) = true
        · rw [processObservation_email_case now acc o r hname hl hc,
              pLookup_pSet, if_pos rfl] at h'
          rw [← Option.some_inj.mp h']
          refine Or.inr (Or.inl ?_)
          exact ((Bool.and_eq_true _ _).mp hc).1
        · by_cases hp : r.isPresent = true
          · rw [processObservation_noop_case now acc o r hname hl
              ((Bool.not_eq_true _).mp hc) hp] at h'
            exact hC o.name r' h'
          · rw [processObservation_rejoin_case now acc o r hname hl
                ((Bool.not_eq_true _).mp hc) ((Bool.not_eq_true _).mp hp),
                pLookup_pSet, if_pos rfl] at h'
            rw [← Option.some_inj.mp h']
            exact Or.inl rfl
    · rw [pLookup_processObservation_ne now acc o k hk] at h'
      exact hC k r' h'

theorem settled_step (m : PMap) (now : Nat) (acc : ScanAcc)
    (o : Observation) (hname : ¬ o.name = "") (hC : Carried m acc.m)
    (hP : ∀ r0, pLookup m o.name = some r0 → r0.isPresent = false →
      optTruthy r0.email = false → optTruthy o.email = false) :
    Settled (processObservation now acc o).m o := by
  cases hl : pLookup acc.m o.name with
  | none =>
    rw [processObservation_create_case now acc o hname hl]
    refine ⟨⟨o.name, jsOrNull o.email, [⟨now, .Join⟩], true, false⟩,
      ?_, rfl, fun hoe => ?_⟩
    · rw [pLookup_pSet, if_pos rfl]
    · simp [jsOrNull, hoe]
  | some r =>
    by_cases hc : (optTruthy o.email && !(optTruthy r.email)) = true
    · obtain ⟨hoe, hre'⟩ := (Bool.and_eq_true _ _).mp hc
      have hre : optTruthy r.email = false := by
        cases h : optTruthy r.email
        · rfl
        · rw [h] at hre'
          exact absurd hre' (by simp)
      have hrp : r.isPresent = true := by
        rcases hC o.name r hl with hpres | hemail | horig
        · exact hpres
        · rw [hemail] at hre
          exact absurd hre (by simp)
        · by_contra hnp
          have := hP r horig ((Bool.not_eq_true _).mp hnp) hre
          rw [this] at hoe
          exact absurd hoe (by simp)
      rw [processObservation_email_case now acc o r hname hl hc]
      refine ⟨{ r with email := o.email }, ?_, hrp, fun _ => hoe⟩
      rw [pLookup_pSet, if_pos rfl]
    · have hc' := (Bool.not_eq_true _).mp hc
      have hemail : optTruthy o.email = true → optTruthy r.email = true := by
        intro hoe
        cases hre : optTruthy r.email
        · rw [hoe, hre] at hc'
          exact absurd hc' (by simp)
        · rfl
      by_cases hp : r.isPresent = true
      · rw [processObservation_noop_case now acc o r hname hl hc' hp]
        exact ⟨r, hl, hp, hemail⟩
      · rw [processObservation_rejoin_case now acc o r hname hl hc'
          ((Bool.not_eq_true _).mp hp)]
        refine ⟨{ r with events := r.events ++ [⟨now, .Join⟩],
                         isPresent := true }, ?_, rfl, hemail⟩
        rw [pLookup_pSet, if_pos rfl]

theorem settled_step_preserved (now : Nat) (acc : ScanAcc)
    (o o2 : Observation) (hS : Settled acc.m o) :
    Settled (processObservation now acc o2).m o := by
  obtain ⟨r', hl, hp, he⟩ := hS
  by_cases hname : o2.name = ""
  · rw [show (processObservation now acc o2).m = acc.m from by
      simp [processObservation, hname]]
    exact ⟨r', hl, hp, he⟩
  · by_cases hk : o.name = o2.name
    · have hl2 : pLookup acc.m o2.name = some r' := by
        rw [← hk]
        exact hl
      by_cases hc : (optTruthy o2.email && !(optTruthy r'.email)) = true
      · rw [processObservation_email_case now acc o2 r' hname hl2 hc]
        refine ⟨{ r' with email := o2.email }, ?_, hp, fun _ => ?_⟩
        · rw [hk, pLookup_pSet, if_pos rfl]
        · exact ((Bool.and_eq_true _ _).mp hc).1
      · rw [processObservation_noop_case now acc o2 r' hname hl2
          ((Bool.not_eq_true _).mp hc) hp]
        exact ⟨r', hl, hp, he⟩
    · refine ⟨r', ?_, hp, he⟩
      rw [pLookup_processObservation_ne now acc o2 o.name hk]
      exact hl

theorem settled_fold_preserved (now : Nat) (obs : List Observation)
    (acc : ScanAcc) (o : Observation) (hS : Settled acc.m o) :
    Settled ((obs.foldl (processObservation now) acc).m) o := by
  induction obs generalizing acc with
  | nil => exact hS
  | cons o2 rest ih =>
    exact ih (processObservation now acc o2)
      (settled_step_preserved now acc o o2 hS)

theorem fold_settles (m : PMap) (now : Nat) (obs : List Observation)
    (acc : ScanAcc) (hC : Carried m acc.m) (hP : ProvisoOK m obs) :
    Carried m ((obs.foldl (processObservation now) acc).m) ∧
    (∀ o ∈ obs, o.name ≠ "" →
      Settled ((obs.foldl (processObservation now) acc).m) o) := by
  induction obs generalizing acc with
  | nil => exact ⟨hC, by simp⟩
  | cons o rest ih =>
    have hC1 := carried_step m now acc o hC
    have hP1 : ProvisoOK m rest :=
      fun o' ho' => hP o' (List.mem_cons_of_mem _ ho')
    obtain ⟨hCfin, hSrest⟩ := ih (processObservation now acc o) hC1 hP1
    refine ⟨hCfin, fun o' ho' hname' => ?_⟩
    rcases List.mem_cons.mp ho' with heq | hmem
    · subst heq
      exact settled_fold_preserved now rest (processObservation now acc o') o'
        (settled_step m now acc o' hname' hC (hP o' (List.mem_cons_self _ _)))
    · exact hSrest o' hmem hname'

theorem leavePass_entries (now : Nat) (f : List String) (m0 : PMap) :
    ∀ p ∈ leavePass now f m0,
      f.contains p.1 = true ∨ p.2.isPresent = false := by
  intro p hp
  rcases List.mem_map.mp hp with ⟨q, hq, hqp⟩
  rw [← hqp]
  unfold leaveUpd
  split
  · right
    rfl
  · rename_i hcond
    cases hcf : f.contains q.1 with
    | true => exact Or.inl rfl
    | false =>
      cases hpq : q.2.isPresent with
      | false => exact Or.inr rfl
      | true => exact absurd (by rw [hcf, hpq]; rfl) hcond

theorem map_fix (g : String × ParticipantRecord → String × ParticipantRecord)
    (l : PMap) (h : ∀ p ∈ l, g p = p) : List.map g l = l := by
  induction l with
  | nil => rfl
  | cons p rest ih =>
    rw [List.map_cons, h p (List.mem_cons_self _ _),
        ih (fun q hq => h q (List.mem_cons_of_mem _ hq))]

theorem leavePass_id (now2 : Nat) (f : List String) (m1 : PMap)
    (h : ∀ p ∈ m1, f.contains p.1 = true ∨ p.2.isPresent = false) :
    leavePass now2 f m1 = m1 := by
  unfold leavePass
  apply map_fix
  intro p hp
  unfold leaveUpd
  rcases h p hp with hcf | hpf
  · rw [if_neg]
    intro hcond
    rw [hcf] at hcond
    simp at hcond
  · rw [if_neg]
    intro hcond
    rw [hpf] at hcond
    simp at hcond

theorem fold_id_of_settled (m1 : PMap) (now2 : Nat) (obs : List Observation)
    (acc : ScanAcc) (hacc : acc.m = m1)
    (hS : ∀ o ∈ obs, o.name ≠ "" → Settled m1 o) :
    ((obs.foldl (processObservation now2) acc).m) = m1 := by
  induction obs generalizing acc with
  | nil => exact hacc
  | cons o rest ih =>
    apply ih
    · by_cases hname : o.name = ""
      · rw [show (processObservation now2 acc o).m = acc.m from by
          simp [processObservation, hname]]
        exact hacc
      · obtain ⟨r', hl, hp, he⟩ := hS o (List.mem_cons_self _ _) hname
        have hl' : pLookup acc.m o.name = some r' := by
          rw [hacc]
          exact hl
        have hc : (optTruthy o.email && !(optTruthy r'.email)) = false := by
          cases hoe : optTruthy o.email
          · rfl
          · rw [he hoe]
            rfl
        rw [processObservation_noop_case now2 acc o r' hname hl' hc hp]
        exact hacc
    · exact fun o' ho' => hS o' (List.mem_cons_of_mem _ ho')

theorem reconcile_idempotent_core (now2 : Nat) (obs : List Observation)
    (m1 : PMap)
    (hS : ∀ o ∈ obs, o.name ≠ "" → Settled m1 o)
    (hE : ∀ p ∈ m1,
      (obs.foldl (fun f o => addFound f o.name) []).contains p.1 = true ∨
        p.2.isPresent = false) :
    (reconcile now2 obs m1).m = m1 := by
  simp only [reconcile]
  rw [fold_id_of_settled m1 now2 obs ⟨m1, [], []⟩ rfl hS, fold_found]
  exact leavePass_id now2 _ m1 hE

theorem C7_email_enrichment_witness :
    processObservation 3 ⟨[("Carol", carolHere)], [], []⟩
        ⟨"Carol", some "c@x.com"⟩
      = ⟨pSet [("Carol", carolHere)] "Carol"
           { carolHere with email := some "c@x.com" },
         addFound [] "Carol", []⟩ :=
  (C7_email_enrichment 3 ⟨[("Carol", carolHere)], [], []⟩
    ⟨"Carol", some "c@x.com"⟩ carolHere (by decide) rfl rfl rfl).1

/-- C2 counterexample: Alice is away (isPresent=false, events
Join at 1 / Leave at 2, no stored email) and is observed at time 3
together with an email; the claim demands an appended Join and
isPresent=true, but the email-update branch runs first: only the email
is set, the history is unchanged and Alice stays non-present. -/
theorem C2_counterexample :
    (reconcile 3 [⟨"Alice", some "a@x.com"⟩] [("Alice", aliceAway)]).m
      = [("Alice", ⟨"Alice", some "a@x.com", [⟨1, .Join⟩, ⟨2, .Leave⟩],
           false, false⟩)] := rfl

/-- C2 amended: the rejoin rule holds for every observation of a known
non-present participant except when the observation carries a truthy
email while the stored email is falsy: then the loop step only sets the
email (no event, no notification, still non-present) and the rejoin
Join is deferred to a later scan.  The total join count of a
participant is the number of Join events in its history. -/
theorem C2_rejoin_rule (now : Nat) (acc : ScanAcc) (o : Observation)
    (r : ParticipantRecord) (hname : o.name ≠ "")
    (h : pLookup acc.m o.name = some r) (hp : r.isPresent = false) :
    (¬(optTruthy o.email = true ∧ optTruthy r.email = false) →
      processObservation now acc o
        = ⟨pSet acc.m o.name
             { r with events := r.events ++ [⟨now, .Join⟩],
                      isPresent := true },
           addFound acc.found o.name,
           acc.notes ++ [⟨.participantRejoined,
             { r with events := r.events ++ [⟨now, .Join⟩],
                      isPresent := true }⟩]⟩) ∧
    ((optTruthy o.email = true ∧ optTruthy r.email = false) →
      processObservation now acc o
        = ⟨pSet acc.m o.name { r with email := o.email },
           addFound acc.found o.name, acc.notes⟩) := by
  constructor
  · intro hno
    have hc : (optTruthy o.email && !(optTruthy r.email)) = false := by
      cases hoe : optTruthy o.email with
      | false => rfl
      | true =>
        cases hre : optTruthy r.email with
        | false => exact absurd ⟨hoe, hre⟩ hno
        | true => rfl
    exact processObservation_rejoin_case now acc o r hname h hc hp
  · intro ⟨hoe, hre⟩
    exact processObservation_email_case now acc o r hname h
      (by rw [hoe, hre]; rfl)

theorem C2_rejoin_rule_witness :
    processObservation 3 ⟨[("Alice", aliceAway)], [], []⟩ ⟨"Alice", none⟩
      = ⟨pSet [("Alice", aliceAway)] "Alice"
           { aliceAway with events := aliceAway.events ++ [⟨3, .Join⟩],
                            isPresent := true },
         addFound [] "Alice",
         [] ++ [⟨.participantRejoined,
           { aliceAway with events := aliceAway.events ++ [⟨3, .Join⟩],
                            isPresent := true }⟩]⟩ :=
  (C2_rejoin_rule 3 ⟨[("Alice", aliceAway)], [], []⟩ ⟨"Alice", none⟩
    aliceAway (by decide) rfl rfl).1 (fun hpair => by simp [optTruthy] at hpair)

/-- C8 counterexample: with Alice away with no stored email, reconciling
the same observation set (Alice carrying an email) twice changes the map
again on the second run - the deferred rejoin Join is appended - so
reconcile is not idempotent as claimed. -/
theorem C8_counterexample :
    (reconcile 4 [⟨"Alice", some "a@x.com"⟩]
        (reconcile 3 [⟨"Alice", some "a@x.com"⟩] [("Alice", aliceAway)]).m).m
      ≠ (reconcile 3 [⟨"Alice", some "a@x.com"⟩] [("Alice", aliceAway)]).m :=
  by decide

/-- C8 amended: (a) a present participant whose name is not among the
observations receives exactly one Leave at scan time and becomes
non-present; (b) reconciling twice with the same observations leaves
the map unchanged provided no observation carries a truthy email for an
existing away record with falsy email (in that excluded case the second
run appends the deferred rejoin Join). -/
theorem C8_leave_idempotence (now now2 : Nat) (obs : List Observation)
    (m : PMap) :
    (∀ (k : String) (r : ParticipantRecord), pLookup m k = some r →
      r.isPresent = true → (∀ o ∈ obs, o.name ≠ k) →
      pLookup (reconcile now obs m).m k
        = some { r with events := r.events ++ [⟨now, .Leave⟩],
                        isPresent := false }) ∧
    (ProvisoOK m obs →
      (reconcile now2 obs (reconcile now obs m).m).m
        = (reconcile now obs m).m) := by
  constructor
  · intro k r h hp hobs
    have hfound : (obs.foldl (processObservation now)
        ⟨m, [], []⟩).found.contains k = false := by
      rw [fold_found]
      cases hb : (obs.foldl (fun f o => addFound f o.name)
          ([] : List String)).contains k with
      | false => rfl
      | true =>
        have hmem : k ∈ obs.foldl (fun f o => addFound f o.name)
            ([] : List String) := by simpa using hb
        rcases mem_of_mem_foldl_addFound obs [] k hmem with h' | ⟨o, ho, hon⟩
        · simp at h'
        · exact absurd hon (hobs o ho)
    simp only [reconcile]
    rw [pLookup_leavePass,
        pLookup_fold_untouched now obs ⟨m, [], []⟩ k hobs]
    have hm : pLookup (⟨m, [], []⟩ : ScanAcc).m k = some r := h
    rw [hm]
    have hcond : (!((obs.foldl (processObservation now)
        ⟨m, [], []⟩).found.contains k) && r.isPresent) = true := by
      rw [hfound, hp]
      rfl
    exact congrArg some (if_pos hcond)
  · intro hP
    have hC0 : Carried m (⟨m, [], []⟩ : ScanAcc).m :=
      fun k r' h' => Or.inr (Or.inr h')
    obtain ⟨hC1, hS1⟩ := fold_settles m now obs ⟨m, [], []⟩ hC0 hP
    have hm1 : (reconcile now obs m).m
        = leavePass now (obs.foldl (processObservation now) ⟨m, [], []⟩).found
            (obs.foldl (processObservation now) ⟨m, [], []⟩).m := rfl
    have hS2 : ∀ o ∈ obs, o.name ≠ "" → Settled ((reconcile now obs m).m) o := by
      intro o ho hname
      obtain ⟨r', hl, hpres, hemail⟩ := hS1 o ho hname
      have hin : (obs.foldl (processObservation now)
          ⟨m, [], []⟩).found.contains o.name = true := by
        rw [fold_found]
        have := mem_foldl_addFound_of_obs obs [] o ho hname
        simpa using this
      refine ⟨r', ?_, hpres, hemail⟩
      rw [hm1, pLookup_leavePass, hl]
      have hcond : (!((obs.foldl (processObservation now)
          ⟨m, [], []⟩).found.contains o.name) && r'.isPresent) = false := by
        rw [hin]
        rfl
      refine congrArg some (if_neg ?_)
      rw [hcond]
      simp
    have hE : ∀ p ∈ (reconcile now obs m).m,
        (obs.foldl (fun f o => addFound f o.name)
          ([] : List String)).contains p.1 = true ∨
          p.2.isPresent = false := by
      intro p hp
      rw [hm1] at hp
      have := leavePass_entries now
        (obs.foldl (processObservation now) ⟨m, [], []⟩).found
        (obs.foldl (processObservation now) ⟨m, [], []⟩).m p hp
      rwa [fold_found] at this
    exact reconcile_idempotent_core now2 obs ((reconcile now obs m).m) hS2 hE

theorem C8_leave_idempotence_witness :
    pLookup (reconcile 5 [] [("Bob", bobHere)]).m "Bob"
      = some { bobHere with events := bobHere.events ++ [⟨5, .Leave⟩],
                            isPresent := false } ∧
    (reconcile 6 [] (reconcile 5 [] [("Bob", bobHere)]).m).m
      = (reconcile 5 [] [("Bob", bobHere)]).m :=
  ⟨(C8_leave_idempotence 5 6 [] [("Bob", bobHere)]).1 "Bob" bobHere rfl rfl
      (by simp),
   (C8_leave_idempotence 5 6 [] [("Bob", bobHere)]).2
      (fun o ho => by simp at ho)⟩

/-- C6 counterexample: extraction rejects a 24-character opaque token,
yet detectSelf performs no validation: the very same internal
identifier taken from the self marker becomes a ParticipantRecord in
the map - so the "by any code path" part of the claim fails. -/
theorem C6_counterexample :
    extractParticipantInfo
        ⟨some "abcdefghij0123456789abcd", none, none, none⟩ = none ∧
    (pLookup (scanParticipants true 0 0 []
        (some "abcdefghij0123456789abcd") []).1
        "abcdefghij0123456789abcd").isSome = true :=
  ⟨rfl, rfl⟩

/-- C6 amended: extraction returns null - it never throws, being total -
whenever the resolved candidate name is empty, shorter than 1 or longer
than 100 characters, or matches the internal-identifier filter; and the
reconcile pass creates records only for observed names, so no rejected
name enters the map through the main scan.  detectSelf, however,
bypasses validation entirely. -/
theorem C6_rejection_filter (el : DomElement) (n : String)
    (h : resolveName el = some n)
    (hbad : n = "" ∨ n.toList.length < 1 ∨ n.toList.length > 100 ∨
      badName n = true) :
    extractParticipantInfo el = none ∧
    (∀ (now : Nat) (obs : List Observation) (m : PMap) (k : String),
      pLookup m k = none → (∀ o ∈ obs, o.name ≠ k) →
      pLookup (reconcile now obs m).m k = none) := by
  constructor
  · simp only [extractParticipantInfo, h]
    rcases hbad with hb | hb | hb | hb
    · rw [if_pos (by simp [hb])]
    · rw [if_pos (by simp only [Bool.or_eq_true, decide_eq_true_eq]; omega)]
    · rw [if_pos (by simp only [Bool.or_eq_true, decide_eq_true_eq]; omega)]
    · split <;> simp [hb]
  · intro now obs m k hk hobs
    simp only [reconcile]
    rw [pLookup_leavePass,
        pLookup_fold_untouched now obs ⟨m, [], []⟩ k hobs]
    have hm : pLookup (⟨m, [], []⟩ : ScanAcc).m k = none := hk
    rw [hm]
    rfl

theorem C6_rejection_filter_witness :
    resolveName ⟨none, some "spaces/abc", none, none⟩ = some "spaces/abc" ∧
    extractParticipantInfo ⟨none, some "spaces/abc", none, none⟩ = none :=
  ⟨rfl, (C6_rejection_filter ⟨none, some "spaces/abc", none, none⟩
    "spaces/abc" rfl (Or.inr (Or.inr (Or.inr (by decide))))).1⟩

/-- C9 counterexample: stopTracking never touches the debounce handle:
with a debounce timer pending, it is still pending after teardown,
refuting "any in-flight debounce timer for a scan is cleared". -/
theorem C9_counterexample :
    (stopTrackingSys
        ⟨true, [("Bob", bobHere)], true, true, true⟩).debouncePending
      = true := rfl

/-- C9 amended: stopTracking clears the tracking flag, cancels the
polling interval and discards the observer, but leaves an in-flight
debounce timer pending; if that timer fires later, the scan it runs
returns immediately because isTracking is false, so no scheduled scan
mutates the participant map after teardown. -/
theorem C9_teardown_cancellation (s : SysState) (now ts : Nat)
    (obs : List Observation) (selfObs : Option String) :
    (stopTrackingSys s).isTracking = false ∧
    (stopTrackingSys s).pollingActive = false ∧
    (stopTrackingSys s).observerAttached = false ∧
    (stopTrackingSys s).debouncePending = s.debouncePending ∧
    (∀ s2 : SysState, s2.isTracking = false →
      (fireDebounce now ts obs selfObs s2).participants = s2.participants ∧
      (firePolling now ts obs selfObs s2).participants = s2.participants) ∧
    (fireDebounce now ts obs selfObs (stopTrackingSys s)).participants
      = (stopTrackingSys s).participants := by
  have hfire : ∀ s2 : SysState, s2.isTracking = false →
      (fireDebounce now ts obs selfObs s2).participants = s2.participants ∧
      (firePolling now ts obs selfObs s2).participants = s2.participants := by
    intro s2 hs2
    constructor
    · unfold fireDebounce
      split
      · simp [scanParticipants, hs2]
      · rfl
    · unfold firePolling
      split
      · simp [scanParticipants, hs2]
      · rfl
  exact ⟨rfl, rfl, rfl, rfl, hfire, (hfire _ rfl).1⟩

theorem C9_teardown_cancellation_witness :
    (fireDebounce 9 9 [⟨"Alice", none⟩] none
        (stopTrackingSys
          ⟨true, [("Bob", bobHere)], true, true, true⟩)).participants
      = (stopTrackingSys
          ⟨true, [("Bob", bobHere)], true, true, true⟩).participants :=
  (C9_teardown_cancellation ⟨true, [("Bob", bobHere)], true, true, true⟩
    9 9 [⟨"Alice", none⟩] none).2.2.2.2.2

end Meet

